import Mathlib

/-!
Shallow embedding of the in-memory filesystem (bwent/in-memory-fs).

The Go code keeps a mutable tree of `File` nodes with parent pointers, a
current-directory cursor and a flat link registry.  We model the tree as a
pure inductive value, the cursor as the path (list of child-map keys) from
the root, and the registry as an association list from link name to the
target's path (`none` for a cleared / dangling target).  Hard links are not
exercised by any operation modelled here and are omitted from the node
record; each node keeps the name set of the symbolic links that target it
(the domain of the Go `symlinks` map), which is all the code consults.
-/

/-- Tree vertex: `util.File` (name, isDirectory, contents, children map,
symlink-name set).  The Go children map is unordered with unique keys; we
use an association list. -/
inductive Node where
  | mk (name : String) (isDirectory : Bool) (contents : String)
       (children : List (String × Node)) (symlinkNames : List String)

def Node.name : Node → String
  | .mk n _ _ _ _ => n

def Node.isDirectory : Node → Bool
  | .mk _ d _ _ _ => d

def Node.contents : Node → String
  | .mk _ _ c _ _ => c

def Node.children : Node → List (String × Node)
  | .mk _ _ _ cs _ => cs

def Node.symlinkNames : Node → List String
  | .mk _ _ _ _ ls => ls

/-- `util.NewFile`: fresh node with empty contents, children and links. -/
def NewFile (name : String) (isDir : Bool) : Node :=
  Node.mk name isDir "" [] []

/-- Association-list lookup (Go map read `m[k]`). -/
def assocFind (l : List (String × α)) (k : String) : Option α :=
  match l with
  | [] => none
  | (k', v) :: rest => if k' = k then some v else assocFind rest k

/-- Association-list write (Go map assignment `m[k] = v`). -/
def assocSet (l : List (String × α)) (k : String) (v : α) : List (String × α) :=
  match l with
  | [] => [(k, v)]
  | (k', v') :: rest => if k' = k then (k, v) :: rest else (k', v') :: assocSet rest k v

/-- Association-list delete (Go `delete(m, k)`). -/
def assocErase (l : List (String × α)) (k : String) : List (String × α) :=
  match l with
  | [] => []
  | (k', v') :: rest => if k' = k then rest else (k', v') :: assocErase rest k

/-- `File.GetChildByName`. -/
def Node.GetChildByName (n : Node) (k : String) : Option Node :=
  assocFind n.children k

/-- `File.UpsertChild`. -/
def Node.UpsertChild (n : Node) (k : String) (c : Node) : Node :=
  Node.mk n.name n.isDirectory n.contents (assocSet n.children k c) n.symlinkNames

/-- `File.RemoveChild`. -/
def Node.RemoveChild (n : Node) (k : String) : Node :=
  Node.mk n.name n.isDirectory n.contents (assocErase n.children k) n.symlinkNames

def Node.withContents (n : Node) (c : String) : Node :=
  Node.mk n.name n.isDirectory c n.children n.symlinkNames

def Node.addSymlinkName (n : Node) (l : String) : Node :=
  Node.mk n.name n.isDirectory n.contents n.children (l :: n.symlinkNames)

/-- Node reached from `t` by following child-map keys along `p`. -/
def nodeAt (t : Node) (p : List String) : Option Node :=
  match p with
  | [] => some t
  | k :: ks =>
    match t.GetChildByName k with
    | some c => nodeAt c ks
    | none => none

/-- Apply `f` to the node at path `p` (identity when the path is absent);
this is how an in-place Go mutation of an interior node reads functionally. -/
def updateAt (t : Node) (p : List String) (f : Node → Node) : Node :=
  match p with
  | [] => f t
  | k :: ks =>
    match t.GetChildByName k with
    | some c => t.UpsertChild k (updateAt c ks f)
    | none => t

/-- Filesystem state: root tree, current-directory path, link registry.
A registry value is the target's path at link-creation time, `none` once
the target pointer has been cleared. -/
structure Filesystem where
  root : Node
  cwd : List String
  links : List (String × Option (List String))

/-- Result of a Go call returning `(string-or-value, error)`; `panicked`
records a Go runtime panic (e.g. index out of range). -/
inductive GoResult (α : Type) where
  | ok (val : α)
  | err (msg : String)
  | panicked

def GoResult.isOk : GoResult α → Bool
  | .ok _ => true
  | _ => false

/-- Project the filesystem out of an operation result, keeping `d` on
error or panic (Go leaves the state untouched in those cases for the
operations modelled here). -/
def resFS (r : GoResult (Filesystem × String)) (d : Filesystem) : Filesystem :=
  match r with
  | .ok (f, _) => f
  | _ => d

def resName (r : GoResult (Filesystem × String)) : Option String :=
  match r with
  | .ok (_, s) => some s
  | _ => none

/-- The current-directory node (always defined in reachable states; the
fallback is never hit when `nodeAt fs.root fs.cwd` is `some`). -/
def Filesystem.wd (fs : Filesystem) : Node :=
  (nodeAt fs.root fs.cwd).getD (Node.mk "/" true "" [] [])

/-- Go `strings.Split` with a one-character separator, on the character
list of the string.  `Split("", sep) = [""]` and separators at the ends
produce empty pieces, as in Go. -/
def splitOnChar (sep : Char) : List Char → List (List Char)
  | [] => [[]]
  | c :: cs =>
    if c = sep then
      [] :: splitOnChar sep cs
    else
      match splitOnChar sep cs with
      | [] => [[c]]
      | h :: t => (c :: h) :: t

/-- Go `unicode.IsSpace` restricted to the ASCII whitespace characters
(the only ones the repository ever feeds it). -/
def isSpaceChar (c : Char) : Bool :=
  c = ' ' ∨ c = '\t' ∨ c = '\n' ∨ c = '\r'

/-- Go `strings.TrimSpace`. -/
def trimSpace (l : List Char) : List Char :=
  ((l.dropWhile isSpaceChar).reverse.dropWhile isSpaceChar).reverse

/-- Go `strings.Join`. -/
def stringsJoin (sep : String) (l : List String) : String :=
  match l with
  | [] => ""
  | h :: t => t.foldl (fun acc s => acc ++ sep ++ s) h

/-- `util.SplitPath`: split on `/`, drop pieces that trim to empty, keep
the untrimmed piece otherwise. -/
def SplitPath (path : String) : List String :=
  ((splitOnChar '/' path.data).map String.mk).filter (fun s => ¬ trimSpace s.data = [])

/-- `strings.Trim(path, "/")`: strip leading and trailing slashes. -/
def trimSlashes (s : String) : String :=
  String.mk (((s.data.dropWhile (fun c => c = '/')).reverse.dropWhile (fun c => c = '/')).reverse)

/-- `util.ModifyNameToHandleCollisions`: split on `.`; with exactly two
pieces insert `1` before the dot, otherwise append `1`. -/
def ModifyNameToHandleCollisions (name : String) : String :=
  let nameSplit := (splitOnChar '.' name.data).map String.mk
  if nameSplit.length = 2 then
    nameSplit.headD "" ++ "1." ++ (nameSplit.getD 1 "")
  else
    name ++ "1"

/-- `util.StringSliceToByteSlice` (current version): concatenate the
arguments with a single space byte between consecutive elements. -/
def StringSliceToByteSlice (strSlice : List String) : String :=
  match strSlice with
  | [] => ""
  | h :: t => t.foldl (fun acc s => acc ++ " " ++ s) h

/-- `util.ExistsInCurrentDir`: a child of that name exists and its
directory flag equals `isDir`. -/
def ExistsInCurrentDir (dir : Node) (name : String) (isDir : Bool) : Bool :=
  match dir.GetChildByName name with
  | some c => c.isDirectory = isDir
  | none => false

/-- Intermediate result of `util.WalkToEndOfPath`: `ok` carries the path of
the reached node; `notFound seg` is the `Directory not found: seg` error;
`panicked` records the out-of-range access `pathSplit[0]` performs on an
empty segment list. -/
inductive WalkRes where
  | ok (p : List String)
  | notFound (seg : String)
  | panicked

/-- Segment loop of `util.WalkToEndOfPath`: `..` moves to the parent (a
no-op at the root, whose parent is nil); any other segment must name an
existing directory child, else `Directory not found`. -/
def walkSegs (t : Node) : List String → List String → WalkRes
  | [], wd => .ok wd
  | s :: rest, wd =>
    if s = ".." then
      walkSegs t rest wd.dropLast
    else
      match nodeAt t (wd ++ [s]) with
      | some c => if c.isDirectory then walkSegs t rest (wd ++ [s]) else .notFound s
      | none => .notFound s

/-- `util.WalkToEndOfPath`.  The Go code reads `pathSplit[0]` before any
length check, so an empty segment list is a runtime panic. -/
def WalkToEndOfPath (t : Node) (pathSplit : List String) (cwd : List String) : WalkRes :=
  match pathSplit with
  | [] => .panicked
  | s0 :: rest =>
    if s0 = "~" then walkSegs t rest [] else walkSegs t (s0 :: rest) cwd

/-- `Filesystem.ResolveLinks`: registry lookup; returns the live target
(`none` both when the name is not registered and when the target was
cleared, exactly as a nil `*File` does in Go). -/
def Filesystem.ResolveLinks (fs : Filesystem) (name : String) : Option (List String) :=
  match assocFind fs.links name with
  | some t => t
  | none => none

/-- Name of the node at path `p` (the Go `GetName` of the node the cursor
points at; the root is named `/`). -/
def nameAt (fs : Filesystem) (p : List String) : String :=
  ((nodeAt fs.root p).getD (Node.mk "/" true "" [] [])).name

/-- `Filesystem.Cd`. -/
def Filesystem.Cd (fs : Filesystem) (path : String) : GoResult (Filesystem × String) :=
  match fs.ResolveLinks path with
  | some p => .ok ({ fs with cwd := p }, nameAt fs p)
  | none =>
    match WalkToEndOfPath fs.root (SplitPath path) fs.cwd with
    | .ok p => .ok ({ fs with cwd := p }, nameAt fs p)
    | .notFound seg => .err ("Directory not found: " ++ seg)
    | .panicked => .panicked

/-- `File.GetChildrenNames` (map-iteration order modelled by list order). -/
def Node.GetChildrenNames (n : Node) : List String :=
  n.children.map (fun c => c.2.name)

/-- `Filesystem.Ls` with zero or one argument. -/
def Filesystem.Ls (fs : Filesystem) (path : Option String) : GoResult String :=
  match path with
  | some p =>
    match fs.ResolveLinks p with
    | some linkTarget =>
      match nodeAt fs.root linkTarget with
      | some n =>
        if ¬ n.isDirectory then
          .err ("Cannot list contents of " ++ n.name ++ " - not a directory")
        else
          .ok (stringsJoin " " n.GetChildrenNames)
      | none => .panicked
    | none =>
      match WalkToEndOfPath fs.root (SplitPath p) fs.cwd with
      | .ok q =>
        match nodeAt fs.root q with
        | some n => .ok (stringsJoin " " n.GetChildrenNames)
        | none => .panicked
      | .notFound seg => .err ("Directory not found: " ++ seg)
      | .panicked => .panicked
  | none => .ok (stringsJoin " " fs.wd.GetChildrenNames)

/-- Clear the registry target of every link whose name is in `names`
(the `link.RemoveTarget()` loop run after a successful `Rm`). -/
def clearTargets (links : List (String × Option (List String))) (names : List String) :
    List (String × Option (List String)) :=
  links.map (fun kv => if kv.1 ∈ names then (kv.1, none) else kv)

/-- `Filesystem.Rm`.  The path is trimmed of slashes and treated as a
direct child name.  A registered link name is a terminal case: the alias
entry is deleted and `RemoveChild` also drops any same-named child of the
current directory. -/
def Filesystem.Rm (fs : Filesystem) (path0 : String) (recursive : Bool) :
    GoResult (Filesystem × String) :=
  let path := trimSlashes path0
  if (assocFind fs.links path).isSome then
    .ok ({ fs with root := updateAt fs.root fs.cwd (fun w => w.RemoveChild path),
                   links := assocErase fs.links path }, path)
  else
    match fs.wd.GetChildByName path with
    | none => .err ("Directory not found: " ++ path)
    | some toRemove =>
      if ¬ recursive then
        if toRemove.isDirectory ∧ toRemove.children.length > 0 then
          .err "Method does not support removing non-empty directories. Use the recursive option"
        else
          .ok ({ fs with root := updateAt fs.root fs.cwd (fun w => w.RemoveChild path),
                         links := clearTargets fs.links toRemove.symlinkNames }, toRemove.name)
      else
        if ¬ toRemove.isDirectory then
          .err "Method does not support removing files recursively"
        else
          .ok ({ fs with root := updateAt fs.root fs.cwd (fun w => w.RemoveChild path),
                         links := clearTargets fs.links toRemove.symlinkNames }, toRemove.name)

/-- `Filesystem.MkFile`: reject `/` in the name; rename once via the
collision rule when an existing child of the same name is a file; insert a
fresh empty file under the (possibly transformed) name. -/
def Filesystem.MkFile (fs : Filesystem) (name0 : String) : GoResult (Filesystem × String) :=
  if name0.data.contains '/' then
    .err "/ character not supported in filenames"
  else
    let name := if ExistsInCurrentDir fs.wd name0 false then
                  ModifyNameToHandleCollisions name0
                else name0
    .ok ({ fs with root := updateAt fs.root fs.cwd
                     (fun w => w.UpsertChild name (NewFile name false)) }, name)

/-- `util.MaxFileSize`. -/
def MaxFileSize : Nat := 2000000

/-- `util.MaxFileReadSize`. -/
def MaxFileReadSize : Nat := 2000

/-- `Filesystem.WriteFile` composed with `File.WriteFileData`: the name
must be an existing child (the directory flag is not checked); the joined
data is appended unless the resulting size exceeds `MaxFileSize`. -/
def Filesystem.WriteFile (fs : Filesystem) (name : String) (data : List String) :
    GoResult (Filesystem × String) :=
  match fs.wd.GetChildByName name with
  | none => .err ("File " ++ name ++ " does not exist")
  | some file =>
    let bytes := StringSliceToByteSlice data
    if file.contents.length + bytes.length > MaxFileSize then
      .err ("Exceeded max file size: size=" ++ toString (file.contents.length + bytes.length)
            ++ ", max=" ++ toString MaxFileSize)
    else
      .ok ({ fs with root := updateAt fs.root (fs.cwd ++ [name])
                       (fun f => f.withContents (f.contents ++ bytes)) }, name)

/-- Prefix of `s` up to and including the first comma, or all of `s` when
it has none: this is `strings.SplitAfterN(s, ",", n)[0]` for any `n ≥ 2`. -/
def takeThroughFirstComma (l : List Char) : List Char :=
  match l with
  | [] => []
  | c :: cs => if c = ',' then [c] else c :: takeThroughFirstComma cs

/-- `File.ReadFileContents`: when the content is longer than
`MaxFileReadSize` the returned view is `SplitAfterN(str, ",", 2000)[0]`
followed by the truncation marker; the stored content is untouched. -/
def ReadFileContents (f : Node) : String :=
  let str := f.contents
  if str.length > MaxFileReadSize then
    String.mk (takeThroughFirstComma str.data)
      ++ " ...[trunated contents after " ++ toString MaxFileReadSize ++ " chars]"
  else
    str

/-- `Filesystem.ReadFile`: resolve as a link first, else as a direct child
of the current directory. -/
def Filesystem.ReadFile (fs : Filesystem) (name : String) : GoResult String :=
  match fs.ResolveLinks name with
  | some p =>
    match nodeAt fs.root p with
    | some f => .ok (ReadFileContents f)
    | none => .panicked
  | none =>
    match fs.wd.GetChildByName name with
    | none => .err ("File " ++ name ++ " does not exist!")
    | some f => .ok (ReadFileContents f)

/-- `File.GetFullPathName` relative to the root, computed from the name
fields along the node's path: `/n1/n2/.../nk` (empty for the root). -/
def renderPath (p : List String) : String :=
  String.join (p.map (fun s => "/" ++ s))

mutual

/-- Total number of nodes in a tree (used as BFS fuel: each queue pop
consumes one unit, and no run pops more entries than the tree has nodes). -/
def nodeCount : Node → Nat
  | .mk _ _ _ cs _ => 1 + nodeCountList cs

def nodeCountList : List (String × Node) → Nat
  | [] => 0
  | (_, n) :: rest => nodeCount n + nodeCountList rest

end

/-- One BFS queue entry: the node together with the name-field path that
`GetFullPathName` would render for it. -/
abbrev BfsEntry := List String × Node

/-- Queue loop of `util.BFS`: pop the front, skip it when its *name* was
already visited, otherwise mark the name, collect it on a target match and
push its children at the back. -/
def bfsLoop (target : String) : Nat → List String → List BfsEntry → List BfsEntry →
    List BfsEntry
  | 0, _, _, res => res
  | _ + 1, _, [], res => res
  | fuel + 1, visited, (p, n) :: rest, res =>
    if n.name ∈ visited then
      bfsLoop target fuel visited rest res
    else
      bfsLoop target fuel (n.name :: visited)
        (rest ++ n.children.map (fun c => (p ++ [c.2.name], c.2)))
        (if n.name = target then res ++ [(p, n)] else res)

/-- `util.BFS` started from `node` (paths rendered relative to it). -/
def BFS (node : Node) (target : String) : List BfsEntry :=
  bfsLoop target (nodeCount node) [] [([], node)] []

/-- `util.FileSliceToString`: full path of every match. -/
def FileSliceToString (data : List BfsEntry) : List String :=
  data.map (fun e => renderPath e.1)

/-- `Filesystem.FindFileOrDir`: recursive mode is a BFS from the root;
non-recursive mode scans the current directory's child-map keys. -/
def Filesystem.FindFileOrDir (fs : Filesystem) (target : String) (searchSubtrees : Bool) :
    List String :=
  if searchSubtrees then
    FileSliceToString (BFS fs.root target)
  else
    fs.wd.children.filterMap (fun c => if target = c.1 then some c.1 else none)

/-- `Filesystem.CreateSymlink` composed with `File.AddSymLink`: the target
must be a direct child of the current directory; the duplicate check reads
only the target node's own symlink map; on success the registry entry for
`linkName` is assigned (overwriting any previous one). -/
def Filesystem.CreateSymlink (fs : Filesystem) (target linkName : String) :
    GoResult (Filesystem × String) :=
  match fs.wd.GetChildByName target with
  | none => .err ("Cannot create symlink: " ++ target ++ " file/directory not found")
  | some targetFile =>
    if linkName ∈ targetFile.symlinkNames then
      .err ("Link with name " ++ linkName ++ " already exists")
    else
      .ok ({ fs with root := updateAt fs.root (fs.cwd ++ [target])
                       (fun n => n.addSymlinkName linkName),
                     links := assocSet fs.links linkName (some (fs.cwd ++ [target])) },
           linkName)

mutual

/-- The whole tree with name-field paths, in preorder: the list of nodes
`util.BFS` draws from (same multiset, level order ignored). -/
def subtreeEntries (p : List String) : Node → List BfsEntry
  | .mk nm d c cs ls => (p, Node.mk nm d c cs ls) :: subtreeEntriesList p cs

def subtreeEntriesList (p : List String) : List (String × Node) → List BfsEntry
  | [] => []
  | (_, n) :: rest => subtreeEntries (p ++ [n.name]) n ++ subtreeEntriesList p rest

end

/-- All nodes of the filesystem tree, with their rendered-path components. -/
def allEntries (fs : Filesystem) : List BfsEntry :=
  subtreeEntries [] fs.root

/-- `NewFileSystem`: root directory `/`, cursor at the root, empty link
registry. -/
def NewFileSystem : Filesystem :=
  ⟨Node.mk "/" true "" [] [], [], []⟩

lemma assocFind_assocSet_self (l : List (String × α)) (k : String) (v : α) :
    assocFind (assocSet l k v) k = some v := by
  induction l with
  | nil => simp [assocSet, assocFind]
  | cons hd tl ih =>
    obtain ⟨k', v'⟩ := hd
    by_cases h : k' = k
    · simp [assocSet, h, assocFind]
    · simp [assocSet, h, assocFind, ih]

lemma assocFind_eq_none_of_not_mem (l : List (String × α)) (k : String)
    (h : k ∉ l.map Prod.fst) : assocFind l k = none := by
  induction l with
  | nil => rfl
  | cons hd tl ih =>
    obtain ⟨k', v'⟩ := hd
    simp only [List.map_cons, List.mem_cons] at h
    push_neg at h
    have hne : ¬ k' = k := fun hk => h.1 hk.symm
    simp [assocFind, hne, ih h.2]

lemma assocFind_assocErase_self (l : List (String × α)) (k : String)
    (h : (l.map Prod.fst).Nodup) : assocFind (assocErase l k) k = none := by
  induction l with
  | nil => rfl
  | cons hd tl ih =>
    obtain ⟨k', v'⟩ := hd
    simp only [List.map_cons, List.nodup_cons] at h
    by_cases hk : k' = k
    · subst hk
      simpa [assocErase] using assocFind_eq_none_of_not_mem tl k' h.1
    · simp [assocErase, hk, assocFind, ih h.2]

lemma assocFind_assocErase_ne (l : List (String × α)) (k k' : String) (h : k' ≠ k) :
    assocFind (assocErase l k) k' = assocFind l k' := by
  induction l with
  | nil => rfl
  | cons hd tl ih =>
    obtain ⟨a, b⟩ := hd
    by_cases ha : a = k
    · have h1 : ¬ a = k' := fun hh => h (ha ▸ hh.symm)
      have h2 : ¬ k = k' := fun hh => h hh.symm
      simp [assocErase, ha, assocFind, h1, h2]
    · simp only [assocErase, ha, if_false]
      by_cases ha' : a = k'
      · simp [assocFind, ha']
      · simp [assocFind, ha', ih]

lemma getChild_upsert_self (n : Node) (k : String) (c : Node) :
    (n.UpsertChild k c).GetChildByName k = some c := by
  cases n
  simp [Node.UpsertChild, Node.GetChildByName, Node.children, assocFind_assocSet_self]

lemma getChild_remove_self (n : Node) (k : String)
    (h : (n.children.map Prod.fst).Nodup) : (n.RemoveChild k).GetChildByName k = none := by
  cases n
  simp only [Node.children] at h
  simp [Node.RemoveChild, Node.GetChildByName, Node.children, assocFind_assocErase_self _ _ h]

lemma getChild_remove_ne (n : Node) (k k' : String) (h : k' ≠ k) :
    (n.RemoveChild k).GetChildByName k' = n.GetChildByName k' := by
  cases n
  simp [Node.RemoveChild, Node.GetChildByName, Node.children, assocFind_assocErase_ne _ _ _ h]

lemma nodeAt_updateAt (f : Node → Node) :
    ∀ (p : List String) (t w : Node), nodeAt t p = some w →
      nodeAt (updateAt t p f) p = some (f w)
  | [], t, w, h => by
    simp only [nodeAt, Option.some.injEq] at h
    subst h
    simp [nodeAt, updateAt]
  | k :: ks, t, w, h => by
    simp only [nodeAt] at h
    cases hc : t.GetChildByName k with
    | none => rw [hc] at h; exact absurd h (by simp)
    | some c =>
      rw [hc] at h
      simp only [updateAt, hc, nodeAt, getChild_upsert_self]
      exact nodeAt_updateAt f ks c w h

lemma nodeAt_append : ∀ (p q : List String) (t : Node),
    nodeAt t (p ++ q) = (nodeAt t p).bind (fun n => nodeAt n q)
  | [], q, t => by simp [nodeAt]
  | k :: ks, q, t => by
    simp only [List.cons_append, nodeAt]
    cases t.GetChildByName k with
    | none => rfl
    | some c => exact nodeAt_append ks q c

lemma wd_eq_of_nodeAt (fs : Filesystem) (w : Node) (hw : nodeAt fs.root fs.cwd = some w) :
    fs.wd = w := by
  simp [Filesystem.wd, hw]

/-- All nodes hanging from the entries of a BFS queue. -/
def pendingEntries : List BfsEntry → List BfsEntry
  | [] => []
  | e :: rest => subtreeEntries e.1 e.2 ++ pendingEntries rest

/-- Total node count hanging from a BFS queue. -/
def totalCount : List BfsEntry → Nat
  | [] => 0
  | e :: rest => nodeCount e.2 + totalCount rest

/-- The entries whose node name equals the search target. -/
def matchesOf (target : String) (l : List BfsEntry) : List BfsEntry :=
  l.filter (fun e => e.2.name = target)

lemma subtreeEntries_eq (p : List String) (n : Node) :
    subtreeEntries p n = (p, n) :: subtreeEntriesList p n.children := by
  cases n
  rfl

lemma nodeCount_eq (n : Node) : nodeCount n = 1 + nodeCountList n.children := by
  cases n
  rfl

lemma pendingEntries_append (q q' : List BfsEntry) :
    pendingEntries (q ++ q') = pendingEntries q ++ pendingEntries q' := by
  induction q with
  | nil => rfl
  | cons e rest ih => simp [pendingEntries, ih]

lemma totalCount_append (q q' : List BfsEntry) :
    totalCount (q ++ q') = totalCount q + totalCount q' := by
  induction q with
  | nil => simp [totalCount]
  | cons e rest ih => simp [totalCount, ih]; omega

lemma pendingEntries_childEntries (p : List String) (cs : List (String × Node)) :
    pendingEntries (cs.map (fun c => (p ++ [c.2.name], c.2))) = subtreeEntriesList p cs := by
  induction cs with
  | nil => rfl
  | cons c rest ih =>
    obtain ⟨k, n⟩ := c
    simp [pendingEntries, subtreeEntriesList, ih]

lemma totalCount_childEntries (p : List String) (cs : List (String × Node)) :
    totalCount (cs.map (fun c => (p ++ [c.2.name], c.2))) = nodeCountList cs := by
  induction cs with
  | nil => rfl
  | cons c rest ih =>
    obtain ⟨k, n⟩ := c
    simp [totalCount, nodeCountList, ih]

lemma matchesOf_append (target : String) (l l' : List BfsEntry) :
    matchesOf target (l ++ l') = matchesOf target l ++ matchesOf target l' := by
  simp [matchesOf]

lemma nodeCount_pos (n : Node) : 1 ≤ nodeCount n := by
  cases n
  simp [nodeCount]

lemma matchesOf_cons (target : String) (e : BfsEntry) (l : List BfsEntry) :
    matchesOf target (e :: l) =
      (if e.2.name = target then [e] else []) ++ matchesOf target l := by
  by_cases h : e.2.name = target <;> simp [matchesOf, List.filter_cons, h]

/-- Under the invariant that the names pending in the queue are pairwise
distinct and disjoint from the visited set, the skip branch of `util.BFS`
never fires and the loop returns (a permutation of) every pending entry
whose name matches the target. -/
lemma bfsLoop_perm (target : String) :
    ∀ (fuel : Nat) (visited : List String) (q res : List BfsEntry),
      totalCount q ≤ fuel →
      ((pendingEntries q).map (fun e => e.2.name)).Nodup →
      (∀ nm ∈ (pendingEntries q).map (fun e => e.2.name), nm ∉ visited) →
      List.Perm (bfsLoop target fuel visited q res)
        (res ++ matchesOf target (pendingEntries q)) := by
  intro fuel
  induction fuel with
  | zero =>
    intro visited q res hfuel _ _
    cases q with
    | nil => simp [bfsLoop, pendingEntries, matchesOf]
    | cons e rest =>
      exfalso
      have := nodeCount_pos e.2
      simp [totalCount] at hfuel
      omega
  | succ fuel ih =>
    intro visited q res hfuel hnodup hvis
    cases q with
    | nil => simp [bfsLoop, pendingEntries, matchesOf]
    | cons e rest =>
      obtain ⟨p, n⟩ := e
      have pend_q : pendingEntries ((p, n) :: rest) =
          (p, n) :: (subtreeEntriesList p n.children ++ pendingEntries rest) := by
        simp [pendingEntries, subtreeEntries_eq]
      have hhead : n.name ∈ (pendingEntries ((p, n) :: rest)).map (fun e => e.2.name) := by
        rw [pend_q]
        exact List.mem_map.2 ⟨(p, n), List.mem_cons_self _ _, rfl⟩
      have hnv : n.name ∉ visited := hvis n.name hhead
      have pend_q' : pendingEntries (rest ++ n.children.map (fun c => (p ++ [c.2.name], c.2))) =
          pendingEntries rest ++ subtreeEntriesList p n.children := by
        rw [pendingEntries_append, pendingEntries_childEntries]
      have hcount : totalCount (rest ++ n.children.map (fun c => (p ++ [c.2.name], c.2))) ≤ fuel := by
        rw [totalCount_append, totalCount_childEntries]
        have h1 : totalCount ((p, n) :: rest) = nodeCount n + totalCount rest := rfl
        have h2 := nodeCount_eq n
        omega
      have htail : ((subtreeEntriesList p n.children ++ pendingEntries rest).map
          (fun e => e.2.name)).Nodup ∧
          n.name ∉ (subtreeEntriesList p n.children ++ pendingEntries rest).map
            (fun e => e.2.name) := by
        rw [pend_q] at hnodup
        simp only [List.map_cons, List.nodup_cons] at hnodup
        exact ⟨hnodup.2, hnodup.1⟩
      have hperm_names : List.Perm
          ((pendingEntries (rest ++ n.children.map (fun c => (p ++ [c.2.name], c.2)))).map
            (fun e => e.2.name))
          ((subtreeEntriesList p n.children ++ pendingEntries rest).map (fun e => e.2.name)) := by
        rw [pend_q']
        exact (List.perm_append_comm).map _
      have hnodup' : ((pendingEntries (rest ++ n.children.map
          (fun c => (p ++ [c.2.name], c.2)))).map (fun e => e.2.name)).Nodup :=
        hperm_names.symm.nodup htail.1
      have hvis' : ∀ nm ∈ (pendingEntries (rest ++ n.children.map
          (fun c => (p ++ [c.2.name], c.2)))).map (fun e => e.2.name),
          nm ∉ n.name :: visited := by
        intro nm hnm
        have hnm' : nm ∈ (subtreeEntriesList p n.children ++ pendingEntries rest).map
            (fun e => e.2.name) := hperm_names.mem_iff.1 hnm
        have h1 : nm ∉ visited := by
          refine hvis nm ?_
          rw [pend_q]
          simp only [List.map_cons, List.mem_cons]
          exact Or.inr hnm'
        have h2 : nm ≠ n.name := fun hh => htail.2 (hh ▸ hnm')
        simp [h2, h1]
      have hstep : bfsLoop target (fuel + 1) visited ((p, n) :: rest) res =
          bfsLoop target fuel (n.name :: visited)
            (rest ++ n.children.map (fun c => (p ++ [c.2.name], c.2)))
            (if n.name = target then res ++ [(p, n)] else res) := by
        rw [bfsLoop, if_neg hnv]
      rw [hstep]
      refine (ih _ _ _ hcount hnodup' hvis').trans ?_
      rw [pend_q', matchesOf_append, pend_q, matchesOf_cons, matchesOf_append]
      by_cases hm : n.name = target
      · rw [if_pos hm, if_pos hm]
        simp only [List.append_assoc, List.cons_append, List.nil_append, List.singleton_append]
        refine List.Perm.append_left res ?_
        exact List.Perm.cons _ (List.perm_append_comm)
      · rw [if_neg hm, if_neg hm]
        simp only [List.append_assoc, List.nil_append]
        exact List.Perm.append_left res (List.perm_append_comm)

/-- Whatever the fuel and visited set, every entry the BFS loop returns is
either already accumulated or a pending entry whose name is the target. -/
lemma bfsLoop_sound (target : String) :
    ∀ (fuel : Nat) (visited : List String) (q res : List BfsEntry) (x : BfsEntry),
      x ∈ bfsLoop target fuel visited q res →
      x ∈ res ∨ (x ∈ pendingEntries q ∧ x.2.name = target) := by
  intro fuel
  induction fuel with
  | zero =>
    intro visited q res x hx
    exact Or.inl hx
  | succ fuel ih =>
    intro visited q res x hx
    cases q with
    | nil => exact Or.inl hx
    | cons e rest =>
      obtain ⟨p, n⟩ := e
      have pend_q : pendingEntries ((p, n) :: rest) =
          (p, n) :: (subtreeEntriesList p n.children ++ pendingEntries rest) := by
        simp [pendingEntries, subtreeEntries_eq]
      rw [bfsLoop] at hx
      by_cases hv : n.name ∈ visited
      · rw [if_pos hv] at hx
        rcases ih _ _ _ _ hx with h | ⟨hmem, hname⟩
        · exact Or.inl h
        · refine Or.inr ⟨?_, hname⟩
          rw [pend_q]
          simp only [List.mem_cons, List.mem_append]
          exact Or.inr (Or.inr hmem)
      · rw [if_neg hv] at hx
        rcases ih _ _ _ _ hx with h | ⟨hmem, hname⟩
        · by_cases hm : n.name = target
          · rw [if_pos hm] at h
            rcases List.mem_append.1 h with h' | h'
            · exact Or.inl h'
            · have hx' : x = (p, n) := by simpa using h'
              refine Or.inr ⟨?_, ?_⟩
              · rw [pend_q]
                simp [hx']
              · rw [hx']
                exact hm
          · rw [if_neg hm] at h
            exact Or.inl h
        · refine Or.inr ⟨?_, hname⟩
          rw [pendingEntries_append, pendingEntries_childEntries] at hmem
          rw [pend_q]
          simp only [List.mem_cons, List.mem_append]
          rcases List.mem_append.1 hmem with h' | h'
          · exact Or.inr (Or.inr h')
          · exact Or.inr (Or.inl h')

/-- A directory `d` holding one file, used to exhibit removal/overwrite
behaviour. -/
def dirD : Node := Node.mk "d" true "" [("sub", Node.mk "sub" false "data" [] [])] []

/-- State with a non-empty directory child `d` and a file child `f`. -/
def fsDF : Filesystem :=
  ⟨Node.mk "/" true "" [("d", dirD), ("f", Node.mk "f" false "" [] [])] [], [], []⟩

/-- C1: for every path string, path resolution via `Cd`/`Ls` is claimed to
be total (a node or a `DirectoryNotFound` error).  It is not: on a path
whose segment list is empty after splitting (`/`, the empty string, a
whitespace-only string) `WalkToEndOfPath` reads `pathSplit[0]` and the Go
runtime panics with an index-out-of-range error.  This theorem evaluates
the model at those failing inputs. -/
theorem cd_ls_panic_on_empty_segment_list :
    SplitPath "/" = [] ∧
    NewFileSystem.Cd "/" = GoResult.panicked ∧
    NewFileSystem.Cd "" = GoResult.panicked ∧
    NewFileSystem.Cd "   " = GoResult.panicked ∧
    NewFileSystem.Ls (some "/") = GoResult.panicked ∧
    WalkToEndOfPath NewFileSystem.root [] [] = WalkRes.panicked :=
  ⟨rfl, rfl, rfl, rfl, rfl, rfl⟩

/-- C8: in a directory with no child named `a.txt`, three consecutive
`MkFile("a.txt")` calls return `a.txt`, `a1.txt`, and again `a1.txt` — the
collision rename is applied once per call and never retried when the
transformed name itself collides. -/
theorem mkfile_collision_rename_applied_once :
    resName (NewFileSystem.MkFile "a.txt") = some "a.txt" ∧
    resName ((resFS (NewFileSystem.MkFile "a.txt") NewFileSystem).MkFile "a.txt")
      = some "a1.txt" ∧
    resName ((resFS ((resFS (NewFileSystem.MkFile "a.txt") NewFileSystem).MkFile "a.txt")
        (resFS (NewFileSystem.MkFile "a.txt") NewFileSystem)).MkFile "a.txt")
      = some "a1.txt" :=
  ⟨rfl, rfl, rfl⟩

/-- C2 counterexample: `WriteFile` on a *directory* child does not fail
with `FileNotFound` — it succeeds and appends the bytes to the directory
node, so a directory node ends up carrying content bytes. -/
theorem writefile_directory_child_succeeds :
    (fsDF.WriteFile "d" ["x"]).isOk = true ∧
    (nodeAt (resFS (fsDF.WriteFile "d" ["x"]) fsDF).root ["d"]).map Node.contents
      = some "x" ∧
    (nodeAt (resFS (fsDF.WriteFile "d" ["x"]) fsDF).root ["d"]).map Node.isDirectory
      = some true :=
  ⟨rfl, rfl, rfl⟩

/-- C4 counterexample: a single `WriteFile` call with the two arguments
`"a"` and `"b"` appends `"a b"`, not the plain concatenation `"ab"` — the
current `StringSliceToByteSlice` inserts a space byte between consecutive
arguments. -/
theorem writefile_two_args_inserts_space :
    (nodeAt (resFS (fsDF.WriteFile "f" ["a", "b"]) fsDF).root ["f"]).map Node.contents
      = some "a b" ∧
    ("a b" : String) ≠ "ab" :=
  ⟨rfl, by decide⟩

/-- A 2001-character content with no comma in it. -/
def bigContent : String := String.mk (List.replicate 2001 'x')

/-- State with a single file whose content is longer than the display cap. -/
def fsBig : Filesystem :=
  ⟨Node.mk "/" true "" [("big.txt", Node.mk "big.txt" false bigContent [] [])] [], [], []⟩

lemma takeThroughFirstComma_no_comma :
    ∀ l : List Char, ',' ∉ l → takeThroughFirstComma l = l := by
  intro l h
  induction l with
  | nil => rfl
  | cons c cs ih =>
    simp only [List.mem_cons] at h
    push_neg at h
    have hc : ¬ c = ',' := fun hh => h.1 hh.symm
    simp [takeThroughFirstComma, hc, ih h.2]

/-- `ReadFileContents` on an over-cap comma-free content returns the whole
content followed by the marker. -/
lemma ReadFileContents_long_no_comma (f : Node)
    (h : f.contents.length > MaxFileReadSize) (hnc : ',' ∉ f.contents.data) :
    ReadFileContents f = f.contents ++ " ...[trunated contents after "
      ++ toString MaxFileReadSize ++ " chars]" := by
  rw [ReadFileContents]
  simp only [if_pos h, takeThroughFirstComma_no_comma _ hnc]

/-- C3: reading a file whose stored content is 2001 characters (and has no
comma) is claimed to return exactly the first 2000 characters plus the
marker.  It does not: `ReadFileContents` cuts at the first comma of the
content (`strings.SplitAfterN(str, ",", 2000)[0]`), so a comma-free
content is returned in full — here all 2001 characters — followed by the
marker.  The stored content itself is untouched by the read. -/
theorem readfile_truncates_at_comma_not_at_cap :
    fsBig.ReadFile "big.txt"
      = GoResult.ok (bigContent ++ " ...[trunated contents after 2000 chars]") ∧
    bigContent.length = 2001 ∧
    (nodeAt fsBig.root ["big.txt"]).map Node.contents = some bigContent := by
  have hdata : bigContent.data = List.replicate 2001 'x' := rfl
  have hlen : bigContent.length = 2001 := by
    show bigContent.data.length = 2001
    rw [hdata, List.length_replicate]
  refine ⟨?_, hlen, rfl⟩
  have hnc : ',' ∉ bigContent.data := by
    intro h
    rw [hdata] at h
    exact absurd (List.eq_of_mem_replicate h) (by decide)
  have hgt : bigContent.length > MaxFileReadSize := by
    rw [hlen]
    decide
  have hstep : fsBig.ReadFile "big.txt"
      = GoResult.ok (ReadFileContents (Node.mk "big.txt" false bigContent [] [])) := rfl
  rw [hstep, ReadFileContents_long_no_comma (Node.mk "big.txt" false bigContent [] []) hgt hnc,
      String.append_assoc, String.append_assoc]
  have hm : (" ...[trunated contents after " ++ (toString MaxFileReadSize ++ " chars]") : String)
      = " ...[trunated contents after 2000 chars]" := rfl
  rw [hm]
  rfl

/-- State in which the current directory has a file `f` targeted by a
symlink named `L` *and* an unrelated real file also named `L`. -/
def fsLinkClash : Filesystem :=
  ⟨Node.mk "/" true "" [("f", Node.mk "f" false "hi" [] ["L"]),
                        ("L", Node.mk "L" false "im-a-file" [] [])] [],
   [], [("L", some ["f"])]⟩

/-- C6 counterexample: when the removed path is a registered link name,
`Rm` does not leave every tree node attached — `RemoveChild(path)` also
detaches the current directory's child that happens to carry the same
name.  Here the real file `L` disappears from the tree. -/
theorem rm_link_name_detaches_same_named_child :
    (nodeAt fsLinkClash.root ["L"]).map Node.contents = some "im-a-file" ∧
    (fsLinkClash.Rm "L" false).isOk = true ∧
    nodeAt (resFS (fsLinkClash.Rm "L" false) fsLinkClash).root ["L"] = none :=
  ⟨rfl, rfl, rfl⟩

/-- The node named `t`, the unique bearer of that name in `fsShadow`. -/
def tFile : Node := Node.mk "t" false "" [] []

/-- Tree with two distinct directories both named `x`: one empty child of
the root, one inside `y` holding the unique node named `t`. -/
def fsShadow : Filesystem :=
  ⟨Node.mk "/" true "" [("x", Node.mk "x" true "" [] []),
                        ("y", Node.mk "y" true "" [("x", Node.mk "x" true "" [("t", tFile)] [])] [])] [],
   [], []⟩

/-- C7 counterexample: `fsShadow` contains exactly one node named `t`, yet
`FindFileOrDir("t", true)` returns the empty list — the BFS visited set is
keyed by node *name*, so the second directory named `x` is skipped
together with its whole subtree. -/
theorem find_unique_match_missed_under_name_shadowing :
    matchesOf "t" (allEntries fsShadow) = [(["y", "x", "t"], tFile)] ∧
    fsShadow.FindFileOrDir "t" true = [] :=
  ⟨rfl, rfl⟩

/-- Successful `WriteFile`: when the named child exists (file *or*
directory) and the size budget holds, the call returns the name and the
joined data is appended to that child's contents. -/
lemma writeFile_ok_spec (fs : Filesystem) (w f : Node) (name : String) (data : List String)
    (hw : nodeAt fs.root fs.cwd = some w)
    (hf : w.GetChildByName name = some f)
    (hsize : f.contents.length + (StringSliceToByteSlice data).length ≤ MaxFileSize) :
    ∃ fs', fs.WriteFile name data = GoResult.ok (fs', name) ∧
      nodeAt fs'.root (fs.cwd ++ [name])
        = some (f.withContents (f.contents ++ StringSliceToByteSlice data)) := by
  have hwd : fs.wd = w := wd_eq_of_nodeAt fs w hw
  have hnotgt : ¬ (f.contents.length + (StringSliceToByteSlice data).length > MaxFileSize) :=
    Nat.not_lt.mpr hsize
  refine ⟨⟨updateAt fs.root (fs.cwd ++ [name])
      (fun g => g.withContents (g.contents ++ StringSliceToByteSlice data)),
      fs.cwd, fs.links⟩, ?_, ?_⟩
  · rw [Filesystem.WriteFile, hwd, hf]
    simp only [if_neg hnotgt]
  · have hat : nodeAt fs.root (fs.cwd ++ [name]) = some f := by
      rw [nodeAt_append, hw]
      simp [nodeAt, hf]
    exact nodeAt_updateAt _ _ _ _ hat

/-- C2 (amended): `WriteFile(name, data...)` checks only that a child of
that name exists in the current directory — the directory flag is never
consulted.  A missing child fails with `FileNotFound` and changes nothing;
an existing child, whether file or directory, gets the bytes appended, so
a directory node can end up carrying content bytes. -/
theorem writefile_checks_only_child_existence (fs : Filesystem) (w : Node)
    (name : String) (data : List String)
    (hw : nodeAt fs.root fs.cwd = some w) :
    (w.GetChildByName name = none →
      fs.WriteFile name data = GoResult.err ("File " ++ name ++ " does not exist")) ∧
    (∀ f, w.GetChildByName name = some f →
      f.contents.length + (StringSliceToByteSlice data).length ≤ MaxFileSize →
      ∃ fs', fs.WriteFile name data = GoResult.ok (fs', name) ∧
        nodeAt fs'.root (fs.cwd ++ [name])
          = some (f.withContents (f.contents ++ StringSliceToByteSlice data))) := by
  have hwd : fs.wd = w := wd_eq_of_nodeAt fs w hw
  constructor
  · intro hnone
    rw [Filesystem.WriteFile, hwd, hnone]
  · intro f hf hsize
    exact writeFile_ok_spec fs w f name data hw hf hsize

/-- Closed instance of the C2 amended theorem at a concrete state: a
missing child errors, a present directory child accepts the write. -/
theorem writefile_checks_only_child_existence_witness :
    fsDF.WriteFile "zz" ["x"] = GoResult.err ("File " ++ "zz" ++ " does not exist") ∧
    ∃ fs', fsDF.WriteFile "d" ["x"] = GoResult.ok (fs', "d") ∧
      nodeAt fs'.root ([] ++ ["d"])
        = some (dirD.withContents (dirD.contents ++ StringSliceToByteSlice ["x"])) :=
  ⟨(writefile_checks_only_child_existence fsDF fsDF.root "zz" ["x"] rfl).1 rfl,
   (writefile_checks_only_child_existence fsDF fsDF.root "d" ["x"] rfl).2 dirD rfl (by decide)⟩

/-- C4 (amended): the bytes appended by a successful `WriteFile` call are
the arguments joined by a single space (Go `strings.Join(data, " ")`), not
their plain concatenation; a single-argument call appends exactly its
argument, so content after a sequence of successful single-argument writes
is the concatenation of the written strings in call order. -/
theorem writefile_appends_space_joined_data (fs : Filesystem) (w f : Node)
    (name : String) (data : List String)
    (hw : nodeAt fs.root fs.cwd = some w)
    (hf : w.GetChildByName name = some f)
    (hsize : f.contents.length + (StringSliceToByteSlice data).length ≤ MaxFileSize) :
    StringSliceToByteSlice data = stringsJoin " " data ∧
    (∀ d : String, StringSliceToByteSlice [d] = d) ∧
    ∃ fs', fs.WriteFile name data = GoResult.ok (fs', name) ∧
      nodeAt fs'.root (fs.cwd ++ [name])
        = some (f.withContents (f.contents ++ stringsJoin " " data)) := by
  refine ⟨rfl, fun d => rfl, ?_⟩
  exact writeFile_ok_spec fs w f name data hw hf hsize

/-- Closed instance of the C4 amended theorem: writing `"a"` and `"b"` in
one call to an empty file leaves contents `"a b"`. -/
theorem writefile_appends_space_joined_data_witness :
    ∃ fs', fsDF.WriteFile "f" ["a", "b"] = GoResult.ok (fs', "f") ∧
      nodeAt fs'.root ([] ++ ["f"])
        = some ((Node.mk "f" false "" [] []).withContents
            ((Node.mk "f" false "" [] []).contents ++ stringsJoin " " ["a", "b"])) :=
  (writefile_appends_space_joined_data fsDF fsDF.root (Node.mk "f" false "" [] [])
    "f" ["a", "b"] rfl rfl (by decide)).2.2

/-- C9: when the current directory has a *directory* child named `n`, the
collision check (which matches only file children) does not fire: `MkFile n`
returns `n` unchanged and replaces the directory node in the children map
with a fresh empty file, orphaning the directory's subtree. -/
theorem mkfile_over_directory_child_replaces_it (fs : Filesystem) (w d : Node) (n : String)
    (hw : nodeAt fs.root fs.cwd = some w)
    (hd : w.GetChildByName n = some d)
    (hdir : d.isDirectory = true)
    (hslash : n.data.contains '/' = false) :
    ∃ fs', fs.MkFile n = GoResult.ok (fs', n) ∧
      nodeAt fs'.root (fs.cwd ++ [n]) = some (NewFile n false) := by
  have hwd : fs.wd = w := wd_eq_of_nodeAt fs w hw
  have hex : ExistsInCurrentDir fs.wd n false = false := by
    rw [hwd, ExistsInCurrentDir, hd]
    simp [hdir]
  refine ⟨⟨updateAt fs.root fs.cwd (fun w' => w'.UpsertChild n (NewFile n false)),
      fs.cwd, fs.links⟩, ?_, ?_⟩
  · rw [Filesystem.MkFile, hslash]
    simp only [Bool.false_eq_true, if_false, hex]
  · have hupd : nodeAt (updateAt fs.root fs.cwd
        (fun w' => w'.UpsertChild n (NewFile n false))) fs.cwd
        = some (w.UpsertChild n (NewFile n false)) :=
      nodeAt_updateAt _ _ _ _ hw
    rw [nodeAt_append]
    simp [hupd, nodeAt, getChild_upsert_self]

/-- Closed instance of the C9 theorem at `fsDF`: `MkFile "d"` over the
non-empty directory child `d` succeeds with the unmodified name and the
slot now holds a fresh empty file. -/
theorem mkfile_over_directory_child_replaces_it_witness :
    ∃ fs', fsDF.MkFile "d" = GoResult.ok (fs', "d") ∧
      nodeAt fs'.root ([] ++ ["d"]) = some (NewFile "d" false) :=
  mkfile_over_directory_child_replaces_it fsDF fsDF.root dirD "d" rfl rfl rfl rfl

/-- Non-link `Rm`: with the trimmed path not registered as a link and
naming an existing child `c`, the call reduces to the recursive/flag case
split of the source. -/
lemma Rm_nonlink_eq (fs : Filesystem) (w : Node) (path : String) (c : Node)
    (recursive : Bool)
    (hw : nodeAt fs.root fs.cwd = some w)
    (hnl : assocFind fs.links (trimSlashes path) = none)
    (hc : w.GetChildByName (trimSlashes path) = some c) :
    fs.Rm path recursive = (if ¬ recursive then
        (if c.isDirectory ∧ c.children.length > 0 then
          GoResult.err
            "Method does not support removing non-empty directories. Use the recursive option"
        else GoResult.ok (⟨updateAt fs.root fs.cwd
            (fun w' => w'.RemoveChild (trimSlashes path)),
          fs.cwd, clearTargets fs.links c.symlinkNames⟩, c.name))
      else (if ¬ c.isDirectory then
          GoResult.err "Method does not support removing files recursively"
        else GoResult.ok (⟨updateAt fs.root fs.cwd
            (fun w' => w'.RemoveChild (trimSlashes path)),
          fs.cwd, clearTargets fs.links c.symlinkNames⟩, c.name))) := by
  have hwd : fs.wd = w := wd_eq_of_nodeAt fs w hw
  simp only [Filesystem.Rm, hnl, hwd, hc, Option.isSome_none, Bool.false_eq_true, if_false]

/-- C5: `Rm` on a direct child of the current directory (whose trimmed
name is not a registered link): a non-empty directory with
`recursive=false` fails with `NonEmptyDirectory`; a file with
`recursive=true` fails with `RecursiveRemoveOfFile`; a directory with
`recursive=true` succeeds, returns the node's name, and the child — with
its entire subtree — is no longer reachable under the parent. -/
theorem rm_error_cases_and_recursive_success (fs : Filesystem) (w : Node)
    (hw : nodeAt fs.root fs.cwd = some w)
    (hkeys : (w.children.map Prod.fst).Nodup) :
    (∀ path c, assocFind fs.links (trimSlashes path) = none →
      w.GetChildByName (trimSlashes path) = some c →
      c.isDirectory = true → 0 < c.children.length →
      fs.Rm path false = GoResult.err
        "Method does not support removing non-empty directories. Use the recursive option") ∧
    (∀ path c, assocFind fs.links (trimSlashes path) = none →
      w.GetChildByName (trimSlashes path) = some c →
      c.isDirectory = false →
      fs.Rm path true = GoResult.err "Method does not support removing files recursively") ∧
    (∀ path c, assocFind fs.links (trimSlashes path) = none →
      w.GetChildByName (trimSlashes path) = some c →
      c.isDirectory = true →
      ∃ fs', fs.Rm path true = GoResult.ok (fs', c.name) ∧
        (nodeAt fs'.root fs.cwd).map (fun w' => w'.GetChildByName (trimSlashes path))
          = some none ∧
        nodeAt fs'.root (fs.cwd ++ [trimSlashes path]) = none) := by
  refine ⟨?_, ?_, ?_⟩
  · intro path c hnl hc hdir hlen
    rw [Rm_nonlink_eq fs w path c false hw hnl hc]
    rw [if_pos (by simp), if_pos ⟨hdir, hlen⟩]
  · intro path c hnl hc hfile
    rw [Rm_nonlink_eq fs w path c true hw hnl hc]
    rw [if_neg (by simp), if_pos (by simp [hfile])]
  · intro path c hnl hc hdir
    refine ⟨⟨updateAt fs.root fs.cwd (fun w' => w'.RemoveChild (trimSlashes path)),
        fs.cwd, clearTargets fs.links c.symlinkNames⟩, ?_, ?_, ?_⟩
    · rw [Rm_nonlink_eq fs w path c true hw hnl hc]
      rw [if_neg (by simp), if_neg (by simp [hdir])]
    · have hupd : nodeAt (updateAt fs.root fs.cwd
          (fun w' => w'.RemoveChild (trimSlashes path))) fs.cwd
          = some (w.RemoveChild (trimSlashes path)) :=
        nodeAt_updateAt _ _ _ _ hw
      rw [hupd]
      simp [getChild_remove_self w _ hkeys]
    · have hupd : nodeAt (updateAt fs.root fs.cwd
          (fun w' => w'.RemoveChild (trimSlashes path))) fs.cwd
          = some (w.RemoveChild (trimSlashes path)) :=
        nodeAt_updateAt _ _ _ _ hw
      rw [nodeAt_append, hupd]
      simp [nodeAt, getChild_remove_self w _ hkeys]

/-- Closed instance of the C5 theorem at `fsDF`: removing the non-empty
directory `d` non-recursively errors, removing the file `f` recursively
errors, and removing `d` recursively detaches it. -/
theorem rm_error_cases_and_recursive_success_witness :
    fsDF.Rm "d" false = GoResult.err
      "Method does not support removing non-empty directories. Use the recursive option" ∧
    fsDF.Rm "f" true = GoResult.err "Method does not support removing files recursively" ∧
    ∃ fs', fsDF.Rm "d" true = GoResult.ok (fs', dirD.name) ∧
      (nodeAt fs'.root fsDF.cwd).map (fun w' => w'.GetChildByName (trimSlashes "d"))
        = some none ∧
      nodeAt fs'.root (fsDF.cwd ++ [trimSlashes "d"]) = none :=
  ⟨(rm_error_cases_and_recursive_success fsDF fsDF.root rfl (by decide)).1
      "d" dirD rfl rfl rfl (by decide),
   (rm_error_cases_and_recursive_success fsDF fsDF.root rfl (by decide)).2.1
      "f" (Node.mk "f" false "" [] []) rfl rfl rfl,
   (rm_error_cases_and_recursive_success fsDF fsDF.root rfl (by decide)).2.2
      "d" dirD rfl rfl rfl⟩

/-- C6 (amended): when the trimmed path is a registered link name, `Rm`
deletes the alias entry from the registry *and* detaches from the current
directory its child of the same name, if one exists; all other children of
the current directory (with their subtrees) are untouched, and the cursor
does not move.  This is a terminal case, independent of `recursive`. -/
theorem rm_link_name_effect (fs : Filesystem) (w : Node) (path : String)
    (t : Option (List String)) (recursive : Bool)
    (hw : nodeAt fs.root fs.cwd = some w)
    (hkeys : (w.children.map Prod.fst).Nodup)
    (hlink : assocFind fs.links (trimSlashes path) = some t) :
    ∃ fs', fs.Rm path recursive = GoResult.ok (fs', trimSlashes path) ∧
      fs'.links = assocErase fs.links (trimSlashes path) ∧
      fs'.cwd = fs.cwd ∧
      (nodeAt fs'.root fs.cwd).map (fun w' => w'.GetChildByName (trimSlashes path))
        = some none ∧
      (∀ k, k ≠ trimSlashes path →
        (nodeAt fs'.root fs.cwd).map (fun w' => w'.GetChildByName k)
          = some (w.GetChildByName k)) := by
  have hupd : nodeAt (updateAt fs.root fs.cwd
      (fun w' => w'.RemoveChild (trimSlashes path))) fs.cwd
      = some (w.RemoveChild (trimSlashes path)) :=
    nodeAt_updateAt _ _ _ _ hw
  refine ⟨⟨updateAt fs.root fs.cwd (fun w' => w'.RemoveChild (trimSlashes path)),
      fs.cwd, assocErase fs.links (trimSlashes path)⟩, ?_, rfl, rfl, ?_, ?_⟩
  · rw [Filesystem.Rm]
    rw [if_pos (by simp [hlink])]
  · rw [hupd]
    simp [getChild_remove_self w _ hkeys]
  · intro k hk
    rw [hupd]
    simp [getChild_remove_ne w _ _ hk]

/-- Closed instance of the C6 amended theorem at `fsLinkClash`: removing
the link name `L` erases the alias, drops the same-named file child, and
leaves the sibling `f` in place. -/
theorem rm_link_name_effect_witness :
    ∃ fs', fsLinkClash.Rm "L" false = GoResult.ok (fs', trimSlashes "L") ∧
      fs'.links = assocErase fsLinkClash.links (trimSlashes "L") ∧
      fs'.cwd = fsLinkClash.cwd ∧
      (nodeAt fs'.root fsLinkClash.cwd).map
        (fun w' => w'.GetChildByName (trimSlashes "L")) = some none ∧
      (∀ k, k ≠ trimSlashes "L" →
        (nodeAt fs'.root fsLinkClash.cwd).map (fun w' => w'.GetChildByName k)
          = some (fsLinkClash.root.GetChildByName k)) :=
  rm_link_name_effect fsLinkClash fsLinkClash.root "L" (some ["f"]) false
    rfl (by decide) rfl

/-- State with two distinct file children `t1` and `t2`, where the link
name `L` is registered in the registry for `t1` (and recorded in `t1`'s
own symlink map, not in `t2`'s). -/
def fsTwoTargets : Filesystem :=
  ⟨Node.mk "/" true "" [("t1", Node.mk "t1" false "" [] ["L"]),
                        ("t2", Node.mk "t2" false "" [] [])] [],
   [], [("L", some ["t1"])]⟩

/-- C10: the `LinkAlreadyExists` check of `CreateSymlink` consults only
the target node's own symlink map, never the global registry: with `L`
already registered for a different node `t1`, `CreateSymlink(t2, L)`
succeeds, silently overwrites the registry entry, and `ResolveLinks(L)`
afterwards yields `t2`'s node. -/
theorem createsymlink_overwrites_registry_entry (fs : Filesystem) (w n2 : Node)
    (t2 L : String) (p1 : List String)
    (hw : nodeAt fs.root fs.cwd = some w)
    (hreg : assocFind fs.links L = some (some p1))
    (hne : p1 ≠ fs.cwd ++ [t2])
    (h2 : w.GetChildByName t2 = some n2)
    (hnolink : L ∉ n2.symlinkNames) :
    ∃ fs', fs.CreateSymlink t2 L = GoResult.ok (fs', L) ∧
      fs'.ResolveLinks L = some (fs.cwd ++ [t2]) ∧
      nodeAt fs'.root (fs.cwd ++ [t2]) = some (n2.addSymlinkName L) := by
  have hwd : fs.wd = w := wd_eq_of_nodeAt fs w hw
  have hat : nodeAt fs.root (fs.cwd ++ [t2]) = some n2 := by
    rw [nodeAt_append, hw]
    simp [nodeAt, h2]
  refine ⟨⟨updateAt fs.root (fs.cwd ++ [t2]) (fun n => n.addSymlinkName L),
      fs.cwd, assocSet fs.links L (some (fs.cwd ++ [t2]))⟩, ?_, ?_, ?_⟩
  · rw [Filesystem.CreateSymlink, hwd, h2]
    exact if_neg hnolink
  · show Filesystem.ResolveLinks _ L = some (fs.cwd ++ [t2])
    rw [Filesystem.ResolveLinks]
    simp [assocFind_assocSet_self]
  · exact nodeAt_updateAt _ _ _ _ hat

/-- Closed instance of the C10 theorem at `fsTwoTargets`. -/
theorem createsymlink_overwrites_registry_entry_witness :
    ∃ fs', fsTwoTargets.CreateSymlink "t2" "L" = GoResult.ok (fs', "L") ∧
      fs'.ResolveLinks "L" = some (fsTwoTargets.cwd ++ ["t2"]) ∧
      nodeAt fs'.root (fsTwoTargets.cwd ++ ["t2"])
        = some ((Node.mk "t2" false "" [] []).addSymlinkName "L") :=
  createsymlink_overwrites_registry_entry fsTwoTargets fsTwoTargets.root
    (Node.mk "t2" false "" [] []) "t2" "L" ["t1"] rfl rfl (by decide) rfl (by decide)

/-- C7 (amended): provided no two distinct nodes of the tree share a name
(so the name-keyed visited set of `util.BFS` never suppresses a node),
`FindFileOrDir(name, true)` on a tree with exactly one node named `name`
returns exactly that node's full path from the root; and — with no
proviso — a name carried by no node yields the empty collection, not an
error. -/
theorem findfileordir_unique_and_none (fs : Filesystem) (target : String) :
    (((allEntries fs).map (fun e => e.2.name)).Nodup →
      ∀ p n, matchesOf target (allEntries fs) = [(p, n)] →
        fs.FindFileOrDir target true = [renderPath p]) ∧
    (matchesOf target (allEntries fs) = [] → fs.FindFileOrDir target true = []) := by
  have hfind : fs.FindFileOrDir target true
      = (bfsLoop target (nodeCount fs.root) [] [([], fs.root)] []).map
          (fun e => renderPath e.1) := rfl
  have hpend : pendingEntries [([], fs.root)] = allEntries fs := by
    simp [pendingEntries, allEntries]
  constructor
  · intro hnodup p n hmatch
    have hperm := bfsLoop_perm target (nodeCount fs.root) [] [([], fs.root)] []
      (by simp [totalCount]) (by rw [hpend]; exact hnodup)
      (fun nm _ => List.not_mem_nil nm)
    rw [hpend, hmatch] at hperm
    have heq : bfsLoop target (nodeCount fs.root) [] [([], fs.root)] [] = [(p, n)] := by
      simpa [List.perm_singleton] using hperm
    rw [hfind, heq]
    rfl
  · intro hmatch
    have hempty : bfsLoop target (nodeCount fs.root) [] [([], fs.root)] [] = [] := by
      apply List.eq_nil_iff_forall_not_mem.mpr
      intro x hx
      rcases bfsLoop_sound target (nodeCount fs.root) [] [([], fs.root)] [] x hx with
        h | ⟨hmem, hname⟩
      · exact absurd h (List.not_mem_nil x)
      · rw [hpend] at hmem
        have hall := List.filter_eq_nil_iff.mp hmatch x hmem
        simp only [decide_eq_true_eq] at hall
        exact hall hname
    rw [hfind, hempty]
    rfl

/-- Fresh tree with pairwise-distinct node names whose only node named `t`
sits at `/a/t`. -/
def fsFound : Filesystem :=
  ⟨Node.mk "/" true "" [("a", Node.mk "a" true "" [("t", tFile)] []),
                        ("b", Node.mk "b" true "" [] [])] [],
   [], []⟩

/-- Closed instance of the C7 amended theorem at `fsFound`: the unique
match is returned as `/a/t`, and a name with zero matches yields `[]`. -/
theorem findfileordir_unique_and_none_witness :
    fsFound.FindFileOrDir "t" true = [renderPath ["a", "t"]] ∧
    fsFound.FindFileOrDir "zzz" true = [] :=
  ⟨(findfileordir_unique_and_none fsFound "t").1 (by decide) ["a", "t"] tFile rfl,
   (findfileordir_unique_and_none fsFound "zzz").2 rfl⟩
